import Mathlib

/-
Verification of the pnpm curation-audit pipeline
(src/checks/combined_audit/main.go) against its specification.

Strings are modelled as lists of characters (`Str`).  Go indexes strings by
byte, but every index the program computes is the position of an ASCII
delimiter (an at sign, a slash); in UTF-8 an ASCII byte occurs only as that
very character, and byte-lexicographic order on UTF-8 coincides with
codepoint-lexicographic order, so the character-level model is faithful for
arbitrary input strings.

Side effects (file reads, YAML/JSON byte codecs, actual sockets) live outside
the modelled core: the parser is modelled from the decoded YAML mapping
onwards, the prober takes the HTTP exchange as an oracle argument, and the
worker pool is modelled by quantifying over the order in which probe results
arrive on the results channel.
-/

abbrev Str := List Char

/-- A scalar decoded YAML/JSON value.  The lock metadata sub-mappings are
opaque to the program (they are copied through without ever being
inspected), so their leaf values are modelled as scalars; a deeper payload
would be handled identically by every modelled operation. -/
inductive JScalar where
  | null : JScalar
  | bool (b : Bool) : JScalar
  | num (n : Int) : JScalar
  | str (s : Str) : JScalar
  deriving DecidableEq

/-- A decoded YAML value attached to a field of a lock entry: either a
scalar, a string-keyed sub-mapping, or a sequence.  The Go code stores these
as interface values and type-asserts only the sub-mapping case. -/
inductive JValue where
  | scalar (v : JScalar)
  | obj (fields : List (Str × JScalar))
  | arr (elems : List JScalar)
  deriving DecidableEq

/-- An opaque string-keyed metadata mapping (Go map of string to
interface). -/
abbrev Metadata := List (Str × JScalar)

/-- PackageInfo from main.go.  The Go field named Type is called Ty here
because Type is a Lean keyword. -/
structure PackageInfo where
  Version : Str
  Ty : Str
  Resolution : Option Metadata
  Engines : Option Metadata
  deriving DecidableEq

/-- Dependency from main.go (a work item handed to the worker pool). -/
structure Dependency where
  Name : Str
  Version : Str
  Ty : Str
  deriving DecidableEq

/-- AuditResult from main.go.  The Go Error field (of interface type error)
is modelled as an optional message string, named Err here. -/
structure AuditResult where
  Index : Nat
  Name : Str
  Version : Str
  Ty : Str
  Status : Str
  StatusCode : Nat
  Err : Option Str
  deriving DecidableEq

/-- Index of the first occurrence of a character (strings.Index /
strings.SplitN with limit 2 use this position). -/
def firstIdxOf (c : Char) : Str → Option Nat
  | [] => none
  | x :: xs => if x = c then some 0 else (firstIdxOf c xs).map (fun i => i + 1)

/-- Index of the last occurrence of a character (strings.LastIndex; the Go
function returns -1 when absent, modelled by none). -/
def lastIdxOf (c : Char) : Str → Option Nat
  | [] => none
  | x :: xs =>
    match lastIdxOf c xs with
    | some i => some (i + 1)
    | none => if x = c then some 0 else none

/-- strings.Split with a one-character separator. -/
def splitChar (c : Char) : Str → List Str
  | [] => [[]]
  | x :: xs =>
    if x = c then [] :: splitChar c xs
    else
      match splitChar c xs with
      | [] => [[x]]
      | h :: t => (x :: h) :: t

/-- Go map lookup on an association-list model of a string-keyed map. -/
def lookupField (k : Str) : List (Str × JValue) → Option JValue
  | [] => none
  | (k', v) :: rest => if k' = k then some v else lookupField k rest

/-- Go map assignment m[k] = v on an association-list model of a map:
replaces the existing binding of k or appends a fresh one. -/
def mapInsert {β : Type} (k : Str) (v : β) : List (Str × β) → List (Str × β)
  | [] => [(k, v)]
  | (k', v') :: rest => if k' = k then (k, v) :: rest else (k', v') :: mapInsert k v rest

/-- parsePackageKey from main.go: split a composite lock key into package
name and version. -/
def parsePackageKey (packageKey : Str) : Str × Str :=
  if packageKey.head? = some '@' then
    match lastIdxOf '@' packageKey with
    | some lastAtIndex =>
      if lastAtIndex > 0 then
        (packageKey.take lastAtIndex, packageKey.drop (lastAtIndex + 1))
      else ([], [])
    | none => ([], [])
  else
    match firstIdxOf '@' packageKey with
    | some i => (packageKey.take i, packageKey.drop (i + 1))
    | none => ([], [])

/-- The (name, version) pair a lock key contributes, if any: parsePnpmLock
records a key exactly when both components returned by parsePackageKey are
non-empty. -/
def keyRecord (packageKey : Str) : Option (Str × Str) :=
  let nv := parsePackageKey packageKey
  if nv.1 ≠ [] ∧ nv.2 ≠ [] then some nv else none

/-- One entry of the decoded packages section of pnpm-lock.yaml: the raw
YAML mapping attached to a composite key. -/
abbrev LockEntry := List (Str × JValue)

/-- Extraction of the optional resolution / engines sub-mapping: present and
itself a mapping, otherwise the field stays at its zero value nil. -/
def subMapping (field : Str) (entry : LockEntry) : Option Metadata :=
  match lookupField field entry with
  | some (JValue.obj m) => some m
  | _ => none

/-- Processing of one (key, entry) pair inside the parsePnpmLock loop. -/
def lockStep (acc : List (Str × PackageInfo)) (kv : Str × LockEntry) :
    List (Str × PackageInfo) :=
  match keyRecord kv.1 with
  | some nv =>
    mapInsert nv.1
      { Version := nv.2
        Ty := "package".data
        Resolution := subMapping "resolution".data kv.2
        Engines := subMapping "engines".data kv.2 } acc
  | none => acc

/-- The pure core of parsePnpmLock from main.go: given the decoded packages
mapping of the lock file (as the sequence of key/value pairs delivered by map
iteration), build the dependency-tree map.  File existence, file reading and
YAML decoding happen before this point and are external to the model. -/
def parsePnpmLock (entries : List (Str × LockEntry)) : List (Str × PackageInfo) :=
  entries.foldl lockStep []

/-- One attempted match of the regular expression \(([^@]+)@([^)]+)\) at the
head of the string: an opening parenthesis, one or more characters other
than the at sign (first capture group), an at sign, one or more characters
other than a closing parenthesis (second capture group), a closing
parenthesis.  Both character classes exclude the character that terminates
them, so the greedy leftmost-first semantics of Go regexp is deterministic
here: each group is the maximal run and no backtracking can succeed where
this scan fails.  Returns the two groups and the remainder after the match. -/
def tryParenMatch : Str → Option (Str × Str × Str)
  | '(' :: rest =>
    let g1 := rest.takeWhile (fun c => c ≠ '@')
    match rest.dropWhile (fun c => c ≠ '@') with
    | '@' :: r2 =>
      if g1 = [] then none
      else
        let g2 := r2.takeWhile (fun c => c ≠ ')')
        match r2.dropWhile (fun c => c ≠ ')') with
        | ')' :: r4 => if g2 = [] then none else some (g1, g2, r4)
        | _ => none
    | _ => none
  | _ => none

/-- FindAllStringSubmatch: scan left to right, take each leftmost match and
continue after it.  The fuel argument only bounds the recursion; every step
either consumes the whole match (at least five characters) or advances one
character, so fuel equal to the string length never runs out. -/
def findParenAux : Nat → Str → List (Str × Str)
  | 0, _ => []
  | fuel + 1, s =>
    match s with
    | [] => []
    | c :: rest =>
      match tryParenMatch (c :: rest) with
      | some (g1, g2, r4) => (g1, g2) :: findParenAux fuel r4
      | none => findParenAux fuel rest

/-- All (name, version) capture pairs of the pattern \(([^@]+)@([^)]+)\) in a
version string, in match order. -/
def findParenMatches (s : Str) : List (Str × Str) :=
  findParenAux s.length s

/-- extractIndirectDependencies from main.go: synthesize an indirect
PackageInfo for every parenthesized name@version note found in a free-form
version string.  (Defined in the source but never invoked by parsePnpmLock.) -/
def extractIndirectDependencies (versionString : Str) : List (Str × PackageInfo) :=
  (findParenMatches versionString).foldl
    (fun acc m =>
      mapInsert m.1
        { Version := m.2, Ty := "indirect".data, Resolution := none, Engines := none } acc)
    []

/-- Go map read m[k] with the zero value of PackageInfo as default (used by
fetchDependenciesFromTree on names taken from the map itself, so the default
is never reached there). -/
def lookupD (k : Str) : List (Str × PackageInfo) → PackageInfo
  | [] => { Version := [], Ty := [], Resolution := none, Engines := none }
  | (k', v) :: rest => if k' = k then v else lookupD k rest

/-- Byte-lexicographic order used by sort.Strings, as a Boolean relation on
character lists (UTF-8 byte order and codepoint order agree). -/
def strLe (a b : Str) : Bool := decide (a ≤ b)

/-- fetchDependenciesFromTree from main.go: collect the package names of the
tree, sort them, and emit one Dependency per name in sorted order.  The
entries argument is the tree map in whatever order map iteration delivers
it. -/
def fetchDependenciesFromTree (packages : List (Str × PackageInfo)) : List Dependency :=
  let packageNames := (packages.map Prod.fst).mergeSort strLe
  packageNames.map (fun n =>
    { Name := n, Version := (lookupD n packages).Version, Ty := (lookupD n packages).Ty })

/-- Outcome of one HTTP GET as observed by checkNpmRegistry: either a
response with a status code, or no response at all.  The failure case covers
both a request-construction error of http.NewRequest and a transport error
of client.Do; the two produce identical AuditResults in the source. -/
inductive HttpOutcome where
  | response (code : Nat) : HttpOutcome
  | failure (cause : Str) : HttpOutcome
  deriving DecidableEq

/-- Tarball URL built by checkNpmRegistry, none when a scoped name has no
slash (the invalid-scoped-package early return, taken before any network
activity). -/
def buildPackageURL (npmRegistryBaseURL packageName packageVersion : Str) : Option Str :=
  if packageName.head? = some '@' then
    let parts := splitChar '/' packageName
    if 2 ≤ parts.length then
      let packageNameOnly := parts.getLastD []
      some (npmRegistryBaseURL ++ "/".data ++ packageName ++ "/-/".data ++
        packageNameOnly ++ "-".data ++ packageVersion ++ ".tgz".data)
    else none
  else
    some (npmRegistryBaseURL ++ "/".data ++ packageName ++ "/-/".data ++
      packageName ++ "-".data ++ packageVersion ++ ".tgz".data)

def availableStatus : Str := "✅ Available in NPM Registry".data

def blockedStatus : Str := "❌ Blocked (403 Forbidden)".data

def notFoundStatus : Str := "❌ Not Found (404)".data

def unexpectedStatus (code : Nat) : Str :=
  "⚠️ Unexpected Response: ".data ++ (toString code).data

def requestFailedStatus : Str := "❌ Request Failed".data

def invalidScopedStatus : Str := "❌ Invalid scoped package format".data

/-- The status-classification switch of checkNpmRegistry. -/
def classifyStatusCode (code : Nat) : Str :=
  if code = 200 then availableStatus
  else if code = 403 then blockedStatus
  else if code = 404 then notFoundStatus
  else unexpectedStatus code

/-- Construction of the AuditResult from the observed HTTP outcome (the tail
of checkNpmRegistry after the URL was built). -/
def respond (packageName packageVersion packageType : Str) (o : HttpOutcome) : AuditResult :=
  match o with
  | HttpOutcome.failure cause =>
    { Index := 0, Name := packageName, Version := packageVersion, Ty := packageType
      Status := requestFailedStatus, StatusCode := 0, Err := some cause }
  | HttpOutcome.response code =>
    { Index := 0, Name := packageName, Version := packageVersion, Ty := packageType
      Status := classifyStatusCode code, StatusCode := code, Err := none }

/-- checkNpmRegistry from main.go.  The HTTP exchange is abstracted by the
oracle argument http mapping the requested URL to its observed outcome; the
bearer credential only decorates the request header and does not otherwise
appear in the control flow, so it is an inert parameter here.  A scoped name
without a slash returns before the oracle is consulted. -/
def checkNpmRegistry (packageName packageVersion packageType npmRegistryBaseURL
    accessToken : Str) (http : Str → HttpOutcome) : AuditResult :=
  match buildPackageURL npmRegistryBaseURL packageName packageVersion with
  | none =>
    { Index := 0, Name := packageName, Version := packageVersion, Ty := packageType
      Status := invalidScopedStatus, StatusCode := 0
      Err := some "invalid scoped package format".data }
  | some packageURL => respond packageName packageVersion packageType (http packageURL)

/-- The body of one worker iteration: probe one dependency. -/
def probeDependency (npmRegistryBaseURL accessToken : Str) (http : Str → HttpOutcome)
    (dep : Dependency) : AuditResult :=
  checkNpmRegistry dep.Name dep.Version dep.Ty npmRegistryBaseURL accessToken http

/-- Scan of a leading base-10 integer as fmt.Sscanf with the d verb performs
it: skip leading blanks (a leading newline is not skipped — the Scanf family
rejects it, surfacing as a scan failure, and a newline is no digit here),
read an optional sign and one or more decimal digits, ignore the remainder;
none when no digit follows or the value overflows the 64-bit int the
program scans into (both are Sscanf error cases). -/
def scanDecimal (s : Str) : Option Int :=
  let t := s.dropWhile (fun c => c = ' ' ∨ c = '\t')
  let signed : Bool × Str :=
    match t with
    | '-' :: u => (true, u)
    | '+' :: u => (false, u)
    | u => (false, u)
  let ds := signed.2.takeWhile Char.isDigit
  if ds = [] then none
  else
    let n : Nat := ds.foldl (fun acc c => acc * 10 + (c.toNat - '0'.toNat)) 0
    let v : Int := if signed.1 then -(n : Int) else (n : Int)
    if v < -(2 ^ 63) ∨ 2 ^ 63 - 1 < v then none else some v

/-- Worker-count selection of main: absent argument keeps the default 5; a
present argument is scanned with fmt.Sscanf, and only a scan failure falls
back to 5 (with a warning). -/
def numWorkersFromArg (arg : Option Str) : Int :=
  match arg with
  | none => 5
  | some s =>
    match scanDecimal s with
    | some n => n
    | none => 5

/-- Whether main prints the invalid-worker-count warning for the given
argument. -/
def workerArgWarns (arg : Option Str) : Bool :=
  match arg with
  | none => false
  | some s => (scanDecimal s).isNone

/-- Concurrency model of auditDependenciesConcurrently: the jobs channel is
buffered to the full work list, numWorkers goroutines drain it, each job is
taken by exactly one worker and answered with exactly one probe result on
the results channel, and the channel is closed once all workers finish.  The
observable behavior is therefore: with at least one worker the results
stream is some interleaving (permutation) of the probe results of all
submitted items; with zero or fewer workers no worker runs, the wait group
releases immediately and the results stream is empty. -/
def coordinatorCanProduce (numWorkers : Int) (deps : List Dependency)
    (probe : Dependency → AuditResult) (arrivals : List AuditResult) : Prop :=
  if 0 < numWorkers then arrivals.Perm (deps.map probe) else arrivals = []

/-- The match-back scan of the collection loop: find the index of the first
submitted dependency whose name and version equal those of the result. -/
def findMatchIdx : List Dependency → AuditResult → Option Nat
  | [], _ => none
  | dep :: rest, r =>
    if dep.Name = r.Name ∧ dep.Version = r.Version then some 0
    else (findMatchIdx rest r).map (fun i => i + 1)

/-- Processing of one arriving result in the collection loop: when the scan
finds a position, store the result there with its Index field set; when it
finds none, the result is dropped from the map (the loop still counts it for
the progress line). -/
def applyResult (deps : List Dependency) (resultMap : Nat → Option AuditResult)
    (r : AuditResult) : Nat → Option AuditResult :=
  match findMatchIdx deps r with
  | some i => fun j => if j = i then some { r with Index := i } else resultMap j
  | none => resultMap

/-- The result map after the collection loop has drained the whole results
stream. -/
def collectResults (deps : List Dependency) (arrivals : List AuditResult) :
    Nat → Option AuditResult :=
  arrivals.foldl (applyResult deps) (fun _ => none)

/-- The final report: positions 0 to N-1 in ascending order, each printed
exactly when the result map holds an outcome for it. -/
def finalReport (deps : List Dependency) (arrivals : List AuditResult) : List AuditResult :=
  (List.range deps.length).filterMap (collectResults deps arrivals)

/-- Default dependency used to express list indexing with getD; every use is
guarded by an index bound. -/
def dfltDep : Dependency := { Name := [], Version := [], Ty := [] }

/-- A JSON document, as written by json.MarshalIndent for the persisted
dependency-tree artifact. -/
inductive Json where
  | null : Json
  | bool (b : Bool) : Json
  | num (n : Int) : Json
  | str (s : Str) : Json
  | arr (elems : List Json) : Json
  | obj (fields : List (Str × Json)) : Json

/-- JSON form of a scalar metadata value. -/
def encodeScalar : JScalar → Json
  | JScalar.null => Json.null
  | JScalar.bool b => Json.bool b
  | JScalar.num n => Json.num n
  | JScalar.str s => Json.str s

/-- JSON form of an optional metadata mapping: Go marshals a nil map as
null and a present map as an object. -/
def encodeMetadata : Option Metadata → Json
  | none => Json.null
  | some m => Json.obj (m.map (fun p => (p.1, encodeScalar p.2)))

/-- JSON form of a PackageInfo under its struct tags: fields version, type,
resolution, engines, in declaration order, none omitted. -/
def encodePackageInfo (info : PackageInfo) : Json :=
  Json.obj
    [("version".data, Json.str info.Version),
     ("type".data, Json.str info.Ty),
     ("resolution".data, encodeMetadata info.Resolution),
     ("engines".data, encodeMetadata info.Engines)]

/-- JSON form of the DependencyTree under its struct tag: one field named
packages holding the package map as an object.  This is the JSON value whose
pretty-printed bytes saveDependencyTree writes to disk.  (Go renders the
map's keys in sorted order; the order of the fields inside a JSON object
carries no information for the map it denotes, so the model passes the
entries through in their list order.) -/
def encodeDependencyTree (packages : List (Str × PackageInfo)) : Json :=
  Json.obj
    [("packages".data, Json.obj (packages.map (fun p => (p.1, encodePackageInfo p.2))))]

/-- Go map lookup on the fields of a decoded JSON object. -/
def lookupJson (k : Str) : List (Str × Json) → Option Json
  | [] => none
  | (k', v) :: rest => if k' = k then some v else lookupJson k rest

/-- Modelled from the spec: the repository writes the artifact but contains
no code that reads it back, so re-parsing (section 8, round-trip property)
is modelled by the standard JSON codec semantics for the same struct tags.
A JSON value decodes to a scalar metadata value exactly when it is one. -/
def decodeScalar : Json → Option JScalar
  | Json.null => some JScalar.null
  | Json.bool b => some (JScalar.bool b)
  | Json.num n => some (JScalar.num n)
  | Json.str s => some (JScalar.str s)
  | _ => none

/-- Modelled from the spec: decoding of an optional metadata mapping.  An
absent field and a null both leave the nil map; an object decodes entrywise;
any other value is a decode error. -/
def decodeMetadata : Option Json → Option (Option Metadata)
  | none => some none
  | some Json.null => some none
  | some (Json.obj fields) =>
    (fields.mapM (fun p => (decodeScalar p.2).map (fun v => (p.1, v)))).map some
  | some _ => none

/-- Modelled from the spec: decoding of a string struct field; an absent
field keeps the zero value. -/
def decodeStrField (v : Option Json) : Option Str :=
  match v with
  | none => some []
  | some (Json.str s) => some s
  | some _ => none

/-- Modelled from the spec: decoding of one PackageInfo from its JSON
object. -/
def decodePackageInfo : Json → Option PackageInfo
  | Json.obj fields => do
    let version ← decodeStrField (lookupJson "version".data fields)
    let ty ← decodeStrField (lookupJson "type".data fields)
    let resolution ← decodeMetadata (lookupJson "resolution".data fields)
    let engines ← decodeMetadata (lookupJson "engines".data fields)
    pure { Version := version, Ty := ty, Resolution := resolution, Engines := engines }
  | _ => none

/-- Modelled from the spec: decoding of the persisted dependency-tree
artifact back into the package map. -/
def decodeDependencyTree : Json → Option (List (Str × PackageInfo))
  | Json.obj fields =>
    match lookupJson "packages".data fields with
    | some (Json.obj pkgs) =>
      pkgs.mapM (fun p => (decodePackageInfo p.2).map (fun info => (p.1, info)))
    | some Json.null => some []
    | none => some []
    | some _ => none
  | _ => none

/-- The key-splitting contract as the specification words it: a key opening
with the scope delimiter splits at the last at sign, any other key splits at
the first at sign, and a key that cannot be split or whose name or version
comes out empty is discarded.  Stated independently of parsePackageKey so
the code can be compared against it. -/
def specSplitKey (key : Str) : Option (Str × Str) :=
  if key.head? = some '@' then
    match lastIdxOf '@' key with
    | some i =>
      if key.take i = [] ∨ key.drop (i + 1) = [] then none
      else some (key.take i, key.drop (i + 1))
    | none => none
  else
    match firstIdxOf '@' key with
    | some i =>
      if key.take i = [] ∨ key.drop (i + 1) = [] then none
      else some (key.take i, key.drop (i + 1))
    | none => none

/-- A constant HTTP oracle, used to instantiate theorems at concrete
inputs. -/
def httpAlways (o : HttpOutcome) : Str → HttpOutcome := fun _ => o

-- Sanity anchors for the parser on the examples of the specification.
example : parsePackageKey "@cypress/listr-verbose-renderer@0.4.1".data =
    ("@cypress/listr-verbose-renderer".data, "0.4.1".data) := by decide

example : parsePackageKey "abbrev@1.1.1".data = ("abbrev".data, "1.1.1".data) := by decide

example : findParenMatches "1.0.0(foo@2.3.0)".data = [("foo".data, "2.3.0".data)] := by decide

example : buildPackageURL "base".data "@scope/pkg".data "1.0.0".data =
    some "base/@scope/pkg/-/pkg-1.0.0.tgz".data := by decide

example : scanDecimal "0".data = some 0 := by decide

example : scanDecimal "-3".data = some (-3) := by decide

example : scanDecimal "abc".data = none := by decide

-- Helper lemmas about the association-list map model.

lemma mem_mapInsert {β : Type} {k : Str} {v : β} {p : Str × β} :
    ∀ {l : List (Str × β)}, p ∈ mapInsert k v l → p = (k, v) ∨ p ∈ l := by
  intro l
  induction l with
  | nil => intro h; simpa [mapInsert] using h
  | cons q rest ih =>
    intro h
    obtain ⟨k', v'⟩ := q
    by_cases hk : k' = k
    · simp only [mapInsert, if_pos hk, List.mem_cons] at h
      rcases h with h | h
      · exact Or.inl h
      · exact Or.inr (List.mem_cons_of_mem _ h)
    · simp only [mapInsert, if_neg hk, List.mem_cons] at h
      rcases h with h | h
      · exact Or.inr (by simp [h])
      · rcases ih h with h2 | h2
        · exact Or.inl h2
        · exact Or.inr (List.mem_cons_of_mem _ h2)

-- Helper lemmas about the key-splitting functions.

lemma firstIdxOf_not_mem_take (c : Char) :
    ∀ (s : Str) (i : Nat), firstIdxOf c s = some i → c ∉ s.take i := by
  intro s
  induction s with
  | nil => intro i h; simp [firstIdxOf] at h
  | cons x xs ih =>
    intro i h
    by_cases hx : x = c
    · simp only [firstIdxOf, if_pos hx] at h
      cases h
      simp
    · simp only [firstIdxOf, if_neg hx, Option.map_eq_some'] at h
      obtain ⟨j, hj, rfl⟩ := h
      intro hmem
      rcases List.mem_cons.mp (by simpa [List.take] using hmem) with h2 | h2
      · exact hx h2.symm
      · exact ih j hj h2

lemma keyRecord_eq_specSplitKey (key : Str) : keyRecord key = specSplitKey key := by
  by_cases hh : key.head? = some '@'
  · cases hl : lastIdxOf '@' key with
    | none =>
      have hp : parsePackageKey key = ([], []) := by simp [parsePackageKey, hh, hl]
      simp [keyRecord, hp, specSplitKey, hh, hl]
    | some i =>
      by_cases hi : i > 0
      · have hp : parsePackageKey key = (key.take i, key.drop (i + 1)) := by
          simp [parsePackageKey, hh, hl, hi]
        by_cases h1 : key.take i = [] <;> by_cases h2 : key.drop (i + 1) = [] <;>
          simp [keyRecord, hp, specSplitKey, hh, hl, h1, h2]
      · have hz : i = 0 := by omega
        subst hz
        have hp : parsePackageKey key = ([], []) := by simp [parsePackageKey, hh, hl]
        simp [keyRecord, hp, specSplitKey, hh, hl]
  · cases hf : firstIdxOf '@' key with
    | none =>
      have hp : parsePackageKey key = ([], []) := by simp [parsePackageKey, hh, hf]
      simp [keyRecord, hp, specSplitKey, hh, hf]
    | some i =>
      have hp : parsePackageKey key = (key.take i, key.drop (i + 1)) := by
        simp [parsePackageKey, hh, hf]
      by_cases h1 : key.take i = [] <;> by_cases h2 : key.drop (i + 1) = [] <;>
        simp [keyRecord, hp, specSplitKey, hh, hf, h1, h2]

lemma keyRecord_name_shape {key : Str} {nv : Str × Str} (h : keyRecord key = some nv) :
    nv.1 ≠ [] ∧ (nv.1.head? = some '@' ∨ '@' ∉ nv.1) := by
  rw [keyRecord_eq_specSplitKey] at h
  by_cases hh : key.head? = some '@'
  · cases hl : lastIdxOf '@' key with
    | none =>
      have hs : specSplitKey key = none := by simp [specSplitKey, hh, hl]
      rw [hs] at h; cases h
    | some i =>
      by_cases hc : key.take i = [] ∨ key.drop (i + 1) = []
      · have hs : specSplitKey key = none := by
          simp only [specSplitKey, if_pos hh, hl, if_pos hc]
        rw [hs] at h; cases h
      · have hs : specSplitKey key = some (key.take i, key.drop (i + 1)) := by
          simp only [specSplitKey, if_pos hh, hl, if_neg hc]
        rw [hs] at h
        cases h
        push_neg at hc
        refine ⟨hc.1, Or.inl ?_⟩
        cases key with
        | nil => simp at hh
        | cons x k' =>
          have hx : x = '@' := by simpa using hh
          cases i with
          | zero => simp at hc
          | succ j => simp [List.take, hx]
  · cases hf : firstIdxOf '@' key with
    | none =>
      have hs : specSplitKey key = none := by simp [specSplitKey, hh, hf]
      rw [hs] at h; cases h
    | some i =>
      by_cases hc : key.take i = [] ∨ key.drop (i + 1) = []
      · have hs : specSplitKey key = none := by
          simp only [specSplitKey, if_neg hh, hf, if_pos hc]
        rw [hs] at h; cases h
      · have hs : specSplitKey key = some (key.take i, key.drop (i + 1)) := by
          simp only [specSplitKey, if_neg hh, hf, if_neg hc]
        rw [hs] at h
        cases h
        push_neg at hc
        exact ⟨hc.1, Or.inr (firstIdxOf_not_mem_take '@' key i hf)⟩

lemma foldl_lockStep_mem {P : Str → Prop}
    (hkey : ∀ key nv, keyRecord key = some nv → P nv.1) :
    ∀ (entries : List (Str × LockEntry)) (acc : List (Str × PackageInfo)),
    (∀ p ∈ acc, P p.1) → ∀ p ∈ entries.foldl lockStep acc, P p.1 := by
  intro entries
  induction entries with
  | nil => intro acc hacc; exact hacc
  | cons kv rest ih =>
    intro acc hacc
    rw [List.foldl_cons]
    apply ih
    intro p hp
    unfold lockStep at hp
    cases hk : keyRecord kv.1 with
    | none => rw [hk] at hp; exact hacc p hp
    | some nv =>
      rw [hk] at hp
      rcases mem_mapInsert hp with h | h
      · rw [h]; exact hkey kv.1 nv hk
      · exact hacc p h

/-- C1: the specification says a secondary extraction pass over free-form
version strings synthesizes additional indirect records during parsing.  The
source defines extractIndirectDependencies exactly for this (and it does
extract the embedded pair, second conjunct), but parsePnpmLock never invokes
it: parsing the specification's own example lock entry yields only the
declared record with the parenthesized note left inside its version string,
and no indirect record for foo exists (first and third conjuncts). -/
theorem indirect_extraction_never_runs :
    parsePnpmLock [("a@1.0.0(foo@2.3.0)".data, [])] =
      [("a".data,
        { Version := "1.0.0(foo@2.3.0)".data, Ty := "package".data,
          Resolution := none, Engines := none })] ∧
    extractIndirectDependencies "1.0.0(foo@2.3.0)".data =
      [("foo".data,
        { Version := "2.3.0".data, Ty := "indirect".data,
          Resolution := none, Engines := none })] ∧
    "foo".data ∉ (parsePnpmLock [("a@1.0.0(foo@2.3.0)".data, [])]).map Prod.fst := by
  refine ⟨by decide, by decide, by decide⟩

/-- C3: the key-splitting pipeline (parsePackageKey followed by the
record-both-parts-non-empty filter of parsePnpmLock) agrees with the
specification's splitting contract on every key; the specification's scoped
example splits as stated; and a discarded key leaves the records of all
other entries untouched. -/
theorem key_splitting_matches_spec :
    (∀ key : Str, keyRecord key = specSplitKey key) ∧
    keyRecord "@cypress/listr-verbose-renderer@0.4.1".data =
      some ("@cypress/listr-verbose-renderer".data, "0.4.1".data) ∧
    (∀ (pre post : List (Str × LockEntry)) (key : Str) (entry : LockEntry),
      specSplitKey key = none →
      parsePnpmLock (pre ++ (key, entry) :: post) = parsePnpmLock (pre ++ post)) := by
  refine ⟨keyRecord_eq_specSplitKey, by decide, ?_⟩
  intro pre post key entry hnone
  unfold parsePnpmLock
  rw [List.foldl_append, List.foldl_append, List.foldl_cons]
  have hstep : lockStep (List.foldl lockStep [] pre) (key, entry) =
      List.foldl lockStep [] pre := by
    unfold lockStep
    rw [show keyRecord (key, entry).1 = none from
      (keyRecord_eq_specSplitKey key).trans hnone]
  rw [hstep]

/-- Witness for C3: discarding the separator-free key x leaves an
otherwise-empty lock document empty. -/
theorem key_splitting_matches_spec_witness :
    parsePnpmLock ([] ++ ("x".data, ([] : LockEntry)) :: []) = parsePnpmLock ([] ++ []) :=
  key_splitting_matches_spec.2.2 [] [] "x".data [] (by decide)

/-- C7 counterexample: the claim says no parsed package name contains the
version-separator character, but parsing the scoped key of the
specification's own example produces the record name containing an at
sign. -/
theorem scoped_name_keeps_at_sign :
    parsePnpmLock [("@scope/name@1.2.3".data, [])] =
      [("@scope/name".data,
        { Version := "1.2.3".data, Ty := "package".data,
          Resolution := none, Engines := none })] ∧
    '@' ∈ "@scope/name".data := by
  refine ⟨by decide, by decide⟩

/-- C7 amended: every package name in the parsed tree is non-empty, and a
name either begins with the scope marker (and may then contain further at
signs retained from the scoped key) or contains no at sign at all. -/
theorem parsed_names_wellformed (entries : List (Str × LockEntry)) :
    ∀ p ∈ parsePnpmLock entries, p.1 ≠ [] ∧ (p.1.head? = some '@' ∨ '@' ∉ p.1) := by
  unfold parsePnpmLock
  exact @foldl_lockStep_mem (fun n => n ≠ [] ∧ (n.head? = some '@' ∨ '@' ∉ n))
    (fun key nv hk => keyRecord_name_shape hk) entries [] (fun p hp => by cases hp)

/-- Witness for C7 amended, at the specification's unscoped example key. -/
theorem parsed_names_wellformed_witness :
    "abbrev".data ≠ ([] : Str) ∧
      ("abbrev".data.head? = some '@' ∨ '@' ∉ "abbrev".data) :=
  parsed_names_wellformed [("abbrev@1.1.1".data, [])]
    ("abbrev".data,
      { Version := "1.1.1".data, Ty := "package".data,
        Resolution := none, Engines := none })
    (by decide)

-- Helper lemmas about the prober.

lemma checkNpmRegistry_eq_none {base packageName packageVersion : Str}
    (hurl : buildPackageURL base packageName packageVersion = none)
    (packageType token : Str) (http : Str → HttpOutcome) :
    checkNpmRegistry packageName packageVersion packageType base token http =
      { Index := 0, Name := packageName, Version := packageVersion, Ty := packageType
        Status := invalidScopedStatus, StatusCode := 0
        Err := some "invalid scoped package format".data } := by
  unfold checkNpmRegistry
  rw [hurl]

lemma checkNpmRegistry_eq_some {base packageName packageVersion url : Str}
    (hurl : buildPackageURL base packageName packageVersion = some url)
    (packageType token : Str) (http : Str → HttpOutcome) :
    checkNpmRegistry packageName packageVersion packageType base token http =
      respond packageName packageVersion packageType (http url) := by
  unfold checkNpmRegistry
  rw [hurl]

lemma checkNpmRegistry_fields (packageName packageVersion packageType base token : Str)
    (http : Str → HttpOutcome) :
    (checkNpmRegistry packageName packageVersion packageType base token http).Name =
        packageName ∧
      (checkNpmRegistry packageName packageVersion packageType base token http).Version =
        packageVersion ∧
      (checkNpmRegistry packageName packageVersion packageType base token http).Ty =
        packageType := by
  cases hurl : buildPackageURL base packageName packageVersion with
  | none =>
    rw [checkNpmRegistry_eq_none hurl]
    exact ⟨rfl, rfl, rfl⟩
  | some url =>
    rw [checkNpmRegistry_eq_some hurl]
    cases http url with
    | response code => exact ⟨rfl, rfl, rfl⟩
    | failure cause => exact ⟨rfl, rfl, rfl⟩

lemma unexpectedStatus_ne_available (code : Nat) :
    unexpectedStatus code ≠ availableStatus := by
  intro h
  have h2 : some '⚠' = availableStatus.head? := congrArg List.head? h
  exact absurd h2 (by decide)

lemma unexpectedStatus_ne_blocked (code : Nat) :
    unexpectedStatus code ≠ blockedStatus := by
  intro h
  have h2 : some '⚠' = blockedStatus.head? := congrArg List.head? h
  exact absurd h2 (by decide)

lemma unexpectedStatus_ne_notFound (code : Nat) :
    unexpectedStatus code ≠ notFoundStatus := by
  intro h
  have h2 : some '⚠' = notFoundStatus.head? := congrArg List.head? h
  exact absurd h2 (by decide)

lemma classify_eq_available_iff (code : Nat) :
    classifyStatusCode code = availableStatus ↔ code = 200 := by
  constructor
  · intro h
    by_contra hc
    unfold classifyStatusCode at h
    rw [if_neg hc] at h
    by_cases h403 : code = 403
    · rw [if_pos h403] at h; exact absurd h (by decide)
    · rw [if_neg h403] at h
      by_cases h404 : code = 404
      · rw [if_pos h404] at h; exact absurd h (by decide)
      · rw [if_neg h404] at h; exact unexpectedStatus_ne_available code h
  · intro h; subst h; rfl

lemma classify_eq_blocked_iff (code : Nat) :
    classifyStatusCode code = blockedStatus ↔ code = 403 := by
  constructor
  · intro h
    by_contra hc
    unfold classifyStatusCode at h
    by_cases h200 : code = 200
    · rw [if_pos h200] at h; exact absurd h (by decide)
    · rw [if_neg h200, if_neg hc] at h
      by_cases h404 : code = 404
      · rw [if_pos h404] at h; exact absurd h (by decide)
      · rw [if_neg h404] at h; exact unexpectedStatus_ne_blocked code h
  · intro h; subst h; rfl

lemma classify_eq_notFound_iff (code : Nat) :
    classifyStatusCode code = notFoundStatus ↔ code = 404 := by
  constructor
  · intro h
    by_contra hc
    unfold classifyStatusCode at h
    by_cases h200 : code = 200
    · rw [if_pos h200] at h; exact absurd h (by decide)
    · rw [if_neg h200] at h
      by_cases h403 : code = 403
      · rw [if_pos h403] at h; exact absurd h (by decide)
      · rw [if_neg h403, if_neg hc] at h; exact unexpectedStatus_ne_notFound code h
  · intro h; subst h; rfl

/-- C10: on every execution path of checkNpmRegistry (malformed scoped
identity, construction or transport failure, or any HTTP response) the
returned AuditResult carries the probed name, version and type unchanged. -/
theorem probe_preserves_identity :
    ∀ (packageName packageVersion packageType base token : Str)
      (http : Str → HttpOutcome),
      (checkNpmRegistry packageName packageVersion packageType base token http).Name =
          packageName ∧
        (checkNpmRegistry packageName packageVersion packageType base token http).Version =
          packageVersion ∧
        (checkNpmRegistry packageName packageVersion packageType base token http).Ty =
          packageType :=
  fun packageName packageVersion packageType base token http =>
    checkNpmRegistry_fields packageName packageVersion packageType base token http

/-- C5: when the probe URL is answered with an HTTP response, the outcome
status is the availability status exactly for code 200, the blocked status
exactly for 403, the missing status exactly for 404, and otherwise the
unexpected status retaining the numeric code (which is stored in StatusCode
on every response); when no response is received, the outcome is the
request-failed status retaining the underlying cause. -/
theorem status_classification (packageName packageVersion packageType base token url : Str)
    (http : Str → HttpOutcome)
    (hurl : buildPackageURL base packageName packageVersion = some url) :
    (∀ code : Nat, http url = HttpOutcome.response code →
      (checkNpmRegistry packageName packageVersion packageType base token http).StatusCode =
          code ∧
        ((checkNpmRegistry packageName packageVersion packageType base token http).Status =
            availableStatus ↔ code = 200) ∧
        ((checkNpmRegistry packageName packageVersion packageType base token http).Status =
            blockedStatus ↔ code = 403) ∧
        ((checkNpmRegistry packageName packageVersion packageType base token http).Status =
            notFoundStatus ↔ code = 404) ∧
        (code ≠ 200 → code ≠ 403 → code ≠ 404 →
          (checkNpmRegistry packageName packageVersion packageType base token http).Status =
            unexpectedStatus code)) ∧
    (∀ cause : Str, http url = HttpOutcome.failure cause →
      (checkNpmRegistry packageName packageVersion packageType base token http).Status =
          requestFailedStatus ∧
        (checkNpmRegistry packageName packageVersion packageType base token http).Err =
          some cause) := by
  constructor
  · intro code hcode
    have hr : checkNpmRegistry packageName packageVersion packageType base token http =
        { Index := 0, Name := packageName, Version := packageVersion, Ty := packageType
          Status := classifyStatusCode code, StatusCode := code, Err := none } := by
      rw [checkNpmRegistry_eq_some hurl, hcode]
      rfl
    rw [hr]
    refine ⟨rfl, classify_eq_available_iff code, classify_eq_blocked_iff code,
      classify_eq_notFound_iff code, ?_⟩
    intro h200 h403 h404
    simp only [classifyStatusCode, if_neg h200, if_neg h403, if_neg h404]
  · intro cause hcause
    have hr : checkNpmRegistry packageName packageVersion packageType base token http =
        { Index := 0, Name := packageName, Version := packageVersion, Ty := packageType
          Status := requestFailedStatus, StatusCode := 0, Err := some cause } := by
      rw [checkNpmRegistry_eq_some hurl, hcause]
      rfl
    rw [hr]
    exact ⟨rfl, rfl⟩

/-- Witness for C5: a probe answered with the teapot code 418 stores the
code and reports the unexpected-response status. -/
theorem status_classification_witness :
    (checkNpmRegistry "p".data "1".data "package".data "r".data []
        (httpAlways (HttpOutcome.response 418))).StatusCode = 418 :=
  ((status_classification "p".data "1".data "package".data "r".data []
      "r/p/-/p-1.tgz".data (httpAlways (HttpOutcome.response 418)) (by decide)).1
    418 rfl).1

-- Helper lemmas about strings.Split for the URL-construction claim.

lemma splitChar_ne_nil (c : Char) (s : Str) : splitChar c s ≠ [] := by
  cases s with
  | nil => simp [splitChar]
  | cons x xs =>
    unfold splitChar
    by_cases h : x = c
    · simp [h]
    · rw [if_neg h]
      cases hs : splitChar c xs <;> simp

lemma splitChar_two_le_iff (c : Char) :
    ∀ s : Str, 2 ≤ (splitChar c s).length ↔ c ∈ s := by
  intro s
  induction s with
  | nil => simp [splitChar]
  | cons x xs ih =>
    unfold splitChar
    by_cases h : x = c
    · rw [if_pos h]
      subst h
      simp only [List.length_cons, List.mem_cons, true_or, iff_true]
      have h1 : splitChar x xs ≠ [] := splitChar_ne_nil x xs
      have h2 : 1 ≤ (splitChar x xs).length := by
        cases hs : splitChar x xs with
        | nil => exact absurd hs h1
        | cons a t => simp
      omega
    · rw [if_neg h]
      cases hs : splitChar c xs with
      | nil => exact absurd hs (splitChar_ne_nil c xs)
      | cons hh tt =>
        rw [hs] at ih
        simp only [List.length_cons] at ih
        simp only [List.length_cons, List.mem_cons]
        constructor
        · intro hlen
          exact Or.inr (ih.mp hlen)
        · intro hmem
          rcases hmem with hmem | hmem
          · exact absurd hmem.symm h
          · exact ih.mpr hmem

/-- C6: the probe URL for a scoped package name (leading at sign and
containing a slash) is base slash name slash dash slash last-segment dash
version dot tgz; for an unscoped name the package name itself takes the
place of the last segment; and a scoped name without a slash produces the
invalid-scoped-package outcome with the HTTP oracle never consulted (the
result is identical under every oracle). -/
theorem probe_url_construction (packageName packageVersion packageType base token : Str)
    (http : Str → HttpOutcome) :
    (packageName.head? = some '@' → '/' ∈ packageName →
      buildPackageURL base packageName packageVersion =
        some (base ++ "/".data ++ packageName ++ "/-/".data ++
          (splitChar '/' packageName).getLastD [] ++ "-".data ++
          packageVersion ++ ".tgz".data) ∧
      checkNpmRegistry packageName packageVersion packageType base token http =
        respond packageName packageVersion packageType
          (http (base ++ "/".data ++ packageName ++ "/-/".data ++
            (splitChar '/' packageName).getLastD [] ++ "-".data ++
            packageVersion ++ ".tgz".data))) ∧
    (packageName.head? ≠ some '@' →
      buildPackageURL base packageName packageVersion =
        some (base ++ "/".data ++ packageName ++ "/-/".data ++
          packageName ++ "-".data ++ packageVersion ++ ".tgz".data)) ∧
    (packageName.head? = some '@' → '/' ∉ packageName →
      (checkNpmRegistry packageName packageVersion packageType base token http).Status =
        invalidScopedStatus ∧
      ∀ http2 : Str → HttpOutcome,
        checkNpmRegistry packageName packageVersion packageType base token http2 =
          checkNpmRegistry packageName packageVersion packageType base token http) := by
  refine ⟨?_, ?_, ?_⟩
  · intro hat hslash
    have hlen : 2 ≤ (splitChar '/' packageName).length :=
      (splitChar_two_le_iff '/' packageName).mpr hslash
    have hurl : buildPackageURL base packageName packageVersion =
        some (base ++ "/".data ++ packageName ++ "/-/".data ++
          (splitChar '/' packageName).getLastD [] ++ "-".data ++
          packageVersion ++ ".tgz".data) := by
      unfold buildPackageURL
      rw [if_pos hat, if_pos hlen]
    exact ⟨hurl, checkNpmRegistry_eq_some hurl packageType token http⟩
  · intro hat
    unfold buildPackageURL
    rw [if_neg hat]
  · intro hat hslash
    have hlen : ¬2 ≤ (splitChar '/' packageName).length := fun h =>
      hslash ((splitChar_two_le_iff '/' packageName).mp h)
    have hurl : buildPackageURL base packageName packageVersion = none := by
      unfold buildPackageURL
      rw [if_pos hat, if_neg hlen]
    constructor
    · rw [checkNpmRegistry_eq_none hurl]
    · intro http2
      rw [checkNpmRegistry_eq_none hurl packageType token http2,
        checkNpmRegistry_eq_none hurl packageType token http]

/-- Witness for C6, at the specification's scoped example: the probe URL of
package at-scope-slash-pkg version 1.0.0 ends in pkg-1.0.0.tgz. -/
theorem probe_url_construction_witness :
    buildPackageURL "base".data "@scope/pkg".data "1.0.0".data =
      some "base/@scope/pkg/-/pkg-1.0.0.tgz".data :=
  ((probe_url_construction "@scope/pkg".data "1.0.0".data "package".data "base".data []
      (httpAlways (HttpOutcome.response 200))).1 (by decide) (by decide)).1

-- Helper lemmas for the persistence round trip.

lemma decode_encode_scalar (v : JScalar) : decodeScalar (encodeScalar v) = some v := by
  cases v <;> rfl

lemma mapM_decode_pairs (l : Metadata) :
    (l.map (fun p => (p.1, encodeScalar p.2))).mapM
      (fun p => (decodeScalar p.2).map (fun v => (p.1, v))) = some l := by
  induction l with
  | nil => rfl
  | cons p rest ih =>
    simp only [List.map_cons, List.mapM_cons, decode_encode_scalar, Option.map_some', ih]
    rfl

lemma decode_encode_metadata (m : Option Metadata) :
    decodeMetadata (some (encodeMetadata m)) = some m := by
  cases m with
  | none => rfl
  | some l =>
    simp only [encodeMetadata, decodeMetadata, mapM_decode_pairs]
    rfl

lemma decode_encode_info (info : PackageInfo) :
    decodePackageInfo (encodePackageInfo info) = some info := by
  obtain ⟨v, t, r, e⟩ := info
  have h1 : lookupJson "version".data
      [("version".data, Json.str v), ("type".data, Json.str t),
       ("resolution".data, encodeMetadata r), ("engines".data, encodeMetadata e)] =
      some (Json.str v) := by simp [lookupJson]
  have h2 : lookupJson "type".data
      [("version".data, Json.str v), ("type".data, Json.str t),
       ("resolution".data, encodeMetadata r), ("engines".data, encodeMetadata e)] =
      some (Json.str t) := by simp [lookupJson]
  have h3 : lookupJson "resolution".data
      [("version".data, Json.str v), ("type".data, Json.str t),
       ("resolution".data, encodeMetadata r), ("engines".data, encodeMetadata e)] =
      some (encodeMetadata r) := by simp [lookupJson]
  have h4 : lookupJson "engines".data
      [("version".data, Json.str v), ("type".data, Json.str t),
       ("resolution".data, encodeMetadata r), ("engines".data, encodeMetadata e)] =
      some (encodeMetadata e) := by simp [lookupJson]
  simp only [encodePackageInfo, decodePackageInfo, h1, h2, h3, h4, decodeStrField,
    decode_encode_metadata, Option.bind_eq_bind, Option.some_bind]
  rfl

lemma mapM_decode_infos : ∀ packages : List (Str × PackageInfo),
    (packages.map (fun p => (p.1, encodePackageInfo p.2))).mapM
      (fun p => (decodePackageInfo p.2).map (fun info => (p.1, info))) = some packages := by
  intro packages
  induction packages with
  | nil => rfl
  | cons p rest ih =>
    simp only [List.map_cons, List.mapM_cons, decode_encode_info, Option.map_some', ih]
    rfl

/-- C9: serializing a dependency tree to the persisted JSON artifact and
re-parsing that artifact under the same struct tags restores every package
with identical version, type, resolution and engines values.  The byte
codec between JSON values and file bytes is the standard library treated as
a given, per the specification's scope. -/
theorem tree_roundtrip (packages : List (Str × PackageInfo)) :
    decodeDependencyTree (encodeDependencyTree packages) = some packages := by
  have h0 : decodeDependencyTree (encodeDependencyTree packages) =
      (packages.map (fun p => (p.1, encodePackageInfo p.2))).mapM
        (fun p => (decodePackageInfo p.2).map (fun info => (p.1, info))) := by
    simp [encodeDependencyTree, decodeDependencyTree, lookupJson]
  rw [h0, mapM_decode_infos]

-- Helper lemmas for the enumerator.

lemma strLe_trans (a b c : Str) (hab : strLe a b = true) (hbc : strLe b c = true) :
    strLe a c = true := by
  simp only [strLe, decide_eq_true_eq] at hab hbc ⊢
  exact le_trans hab hbc

lemma strLe_total (a b : Str) : (strLe a b || strLe b a) = true := by
  simp only [strLe, Bool.or_eq_true, decide_eq_true_eq]
  exact le_total a b

lemma lookupD_eq_of_mem {n : Str} {info : PackageInfo} :
    ∀ {l : List (Str × PackageInfo)}, (l.map Prod.fst).Nodup → (n, info) ∈ l →
      lookupD n l = info := by
  intro l
  induction l with
  | nil => intro _ h; cases h
  | cons q rest ih =>
    intro hnd hmem
    obtain ⟨k, v⟩ := q
    simp only [List.map_cons, List.nodup_cons] at hnd
    rcases List.mem_cons.mp hmem with h | h
    · cases h
      simp [lookupD]
    · by_cases hk : k = n
      · subst hk
        exact absurd (List.mem_map_of_mem Prod.fst h) hnd.1
      · simp only [lookupD, if_neg hk]
        exact ih hnd.2 h

lemma lookupD_perm : ∀ {l1 l2 : List (Str × PackageInfo)}, l1.Perm l2 →
    (l2.map Prod.fst).Nodup → ∀ n, lookupD n l1 = lookupD n l2 := by
  intro l1 l2 h
  induction h with
  | nil => intro _ n; rfl
  | cons x l ih =>
    intro hnd n
    obtain ⟨k, v⟩ := x
    simp only [List.map_cons, List.nodup_cons] at hnd
    simp only [lookupD]
    by_cases hk : k = n
    · simp [hk]
    · simp only [if_neg hk]
      exact ih hnd.2 n
  | swap x y l =>
    intro hnd n
    obtain ⟨a, va⟩ := x
    obtain ⟨b, vb⟩ := y
    simp only [List.map_cons, List.nodup_cons] at hnd
    have hab : a ≠ b := fun h => hnd.1 (List.mem_cons.mpr (Or.inl h))
    by_cases ha : a = n
    · subst ha
      have hb : ¬b = a := fun h => hab h.symm
      simp only [lookupD, if_neg hb, if_pos rfl]
    · by_cases hb : b = n
      · subst hb
        simp only [lookupD, if_pos rfl, if_neg ha]
      · simp only [lookupD, if_neg ha, if_neg hb]
  | trans h12 h23 ih12 ih23 =>
    intro hnd n
    have hnd2 := (h23.map Prod.fst).nodup_iff.mpr hnd
    exact (ih12 hnd2 n).trans (ih23 hnd n)

lemma fetch_names (packages : List (Str × PackageInfo)) :
    (fetchDependenciesFromTree packages).map Dependency.Name =
      (packages.map Prod.fst).mergeSort strLe := by
  unfold fetchDependenciesFromTree
  rw [List.map_map]
  exact List.map_congr_left (fun a _ => rfl) |>.trans (List.map_id _)

/-- C8: the enumerator emits exactly one work item per package record, the
emitted names are the package names sorted in ascending lexical order
without duplicates (so the position of an item in the list is its 0-based
rank in that order), every record's version and type travel with its item,
and a second enumeration of the same tree map, even if map iteration
delivers the entries in a different order, yields the identical work
list. -/
theorem enumerator_sorted_deterministic (packages packages2 : List (Str × PackageInfo))
    (hnd : (packages.map Prod.fst).Nodup)
    (hperm : packages2.Perm packages) :
    (fetchDependenciesFromTree packages).length = packages.length ∧
    ((fetchDependenciesFromTree packages).map Dependency.Name).Perm
      (packages.map Prod.fst) ∧
    List.Sorted (fun a b : Str => a ≤ b)
      ((fetchDependenciesFromTree packages).map Dependency.Name) ∧
    ((fetchDependenciesFromTree packages).map Dependency.Name).Nodup ∧
    (∀ nv ∈ packages,
      ({ Name := nv.1, Version := nv.2.Version, Ty := nv.2.Ty } : Dependency) ∈
        fetchDependenciesFromTree packages) ∧
    fetchDependenciesFromTree packages2 = fetchDependenciesFromTree packages := by
  have hperm1 : ((fetchDependenciesFromTree packages).map Dependency.Name).Perm
      (packages.map Prod.fst) := by
    rw [fetch_names]
    exact List.mergeSort_perm (packages.map Prod.fst) strLe
  have hsorted : List.Sorted (fun a b : Str => a ≤ b)
      ((fetchDependenciesFromTree packages).map Dependency.Name) := by
    rw [fetch_names]
    exact (List.sorted_mergeSort strLe_trans strLe_total (packages.map Prod.fst)).imp
      (fun h => by simpa [strLe] using h)
  have hnodup : ((fetchDependenciesFromTree packages).map Dependency.Name).Nodup :=
    hperm1.nodup_iff.mpr hnd
  refine ⟨?_, hperm1, hsorted, hnodup, ?_, ?_⟩
  · have := hperm1.length_eq
    simpa using this
  · intro nv hmem
    obtain ⟨n, info⟩ := nv
    have hn : n ∈ (packages.map Prod.fst).mergeSort strLe :=
      (List.mergeSort_perm (packages.map Prod.fst) strLe).mem_iff.mpr
        (List.mem_map_of_mem Prod.fst hmem)
    have hlook : lookupD n packages = info := lookupD_eq_of_mem hnd hmem
    have hfe : fetchDependenciesFromTree packages =
        ((packages.map Prod.fst).mergeSort strLe).map
          (fun n => ({ Name := n,
                       Version := (lookupD n packages).Version,
                       Ty := (lookupD n packages).Ty } : Dependency)) := rfl
    rw [hfe]
    exact List.mem_map.mpr ⟨n, hn, by rw [hlook]⟩
  · have hkeys : (packages2.map Prod.fst).Perm (packages.map Prod.fst) := hperm.map _
    have hnd2 : (packages2.map Prod.fst).Nodup := hkeys.nodup_iff.mpr hnd
    have hsorted2 : List.Sorted (fun a b : Str => a ≤ b)
        ((packages2.map Prod.fst).mergeSort strLe) :=
      (List.sorted_mergeSort strLe_trans strLe_total (packages2.map Prod.fst)).imp
        (fun h => by simpa [strLe] using h)
    have hsorted1 : List.Sorted (fun a b : Str => a ≤ b)
        ((packages.map Prod.fst).mergeSort strLe) :=
      (List.sorted_mergeSort strLe_trans strLe_total (packages.map Prod.fst)).imp
        (fun h => by simpa [strLe] using h)
    have hnames : (packages2.map Prod.fst).mergeSort strLe =
        (packages.map Prod.fst).mergeSort strLe := by
      apply List.eq_of_perm_of_sorted ?_ hsorted2 hsorted1
      exact ((List.mergeSort_perm _ strLe).trans hkeys).trans
        (List.mergeSort_perm _ strLe).symm
    unfold fetchDependenciesFromTree
    rw [hnames]
    exact List.map_congr_left (fun n _ => by rw [lookupD_perm hperm hnd n])

/-- Witness for C8: a two-entry tree map handed over in two different
iteration orders enumerates to the same sorted work list. -/
theorem enumerator_sorted_deterministic_witness :
    fetchDependenciesFromTree
        [("b".data, { Version := "2".data, Ty := "package".data, Resolution := none,
                      Engines := none }),
         ("a".data, { Version := "1".data, Ty := "package".data, Resolution := none,
                      Engines := none })] =
      fetchDependenciesFromTree
        [("a".data, { Version := "1".data, Ty := "package".data, Resolution := none,
                      Engines := none }),
         ("b".data, { Version := "2".data, Ty := "package".data, Resolution := none,
                      Engines := none })] :=
  (enumerator_sorted_deterministic
    [("a".data, { Version := "1".data, Ty := "package".data, Resolution := none,
                  Engines := none }),
     ("b".data, { Version := "2".data, Ty := "package".data, Resolution := none,
                  Engines := none })]
    [("b".data, { Version := "2".data, Ty := "package".data, Resolution := none,
                  Engines := none }),
     ("a".data, { Version := "1".data, Ty := "package".data, Resolution := none,
                  Engines := none })]
    (by decide) (by decide)).2.2.2.2.2

-- Helper lemmas for the coordinator.

lemma getD_mem_of_lt {α : Type} (d : α) :
    ∀ (l : List α) (i : Nat), i < l.length → l.getD i d ∈ l := by
  intro l
  induction l with
  | nil => intro i hi; cases hi
  | cons x xs ih =>
    intro i hi
    cases i with
    | zero => exact List.mem_cons_self _ _
    | succ j => exact List.mem_cons_of_mem _ (ih j (Nat.lt_of_succ_lt_succ hi))

lemma mem_iff_getD {α : Type} (d : α) :
    ∀ {l : List α} {a : α}, a ∈ l → ∃ i, i < l.length ∧ l.getD i d = a := by
  intro l
  induction l with
  | nil => intro a h; cases h
  | cons x xs ih =>
    intro a h
    rcases List.mem_cons.mp h with h | h
    · exact ⟨0, Nat.succ_pos _, h.symm⟩
    · obtain ⟨i, hi, hg⟩ := ih h
      exact ⟨i + 1, Nat.succ_lt_succ hi, hg⟩

lemma nodup_map_getD_inj {α β : Type} (f : α → β) (d : α) :
    ∀ (l : List α), (l.map f).Nodup → ∀ i j, i < l.length → j < l.length →
      f (l.getD i d) = f (l.getD j d) → i = j := by
  intro l
  induction l with
  | nil => intro _ i j hi; cases hi
  | cons x xs ih =>
    intro hnd i j hi hj hf
    simp only [List.map_cons, List.nodup_cons] at hnd
    cases i with
    | zero =>
      cases j with
      | zero => rfl
      | succ j' =>
        exfalso
        apply hnd.1
        have hf' : f x = f (xs.getD j' d) := hf
        rw [hf']
        exact List.mem_map_of_mem f (getD_mem_of_lt d xs j' (Nat.lt_of_succ_lt_succ hj))
    | succ i' =>
      cases j with
      | zero =>
        exfalso
        apply hnd.1
        have hf' : f (xs.getD i' d) = f x := hf
        rw [← hf']
        exact List.mem_map_of_mem f (getD_mem_of_lt d xs i' (Nat.lt_of_succ_lt_succ hi))
      | succ j' =>
        have := ih hnd.2 i' j' (Nat.lt_of_succ_lt_succ hi) (Nat.lt_of_succ_lt_succ hj) hf
        omega

lemma findMatchIdx_bound :
    ∀ {deps : List Dependency} {r : AuditResult} {i : Nat},
      findMatchIdx deps r = some i →
      i < deps.length ∧ (deps.getD i dfltDep).Name = r.Name ∧
        (deps.getD i dfltDep).Version = r.Version := by
  intro deps
  induction deps with
  | nil => intro r i h; cases h
  | cons d rest ih =>
    intro r i h
    by_cases hd : d.Name = r.Name ∧ d.Version = r.Version
    · simp only [findMatchIdx, if_pos hd] at h
      cases h
      exact ⟨Nat.succ_pos _, hd.1, hd.2⟩
    · simp only [findMatchIdx, if_neg hd, Option.map_eq_some'] at h
      obtain ⟨j, hj, rfl⟩ := h
      obtain ⟨hb, hn, hv⟩ := ih hj
      exact ⟨Nat.succ_lt_succ hb, hn, hv⟩

lemma findMatchIdx_complete :
    ∀ {deps : List Dependency},
      (deps.map (fun d => (d.Name, d.Version))).Nodup →
      ∀ {i : Nat}, i < deps.length →
      ∀ {r : AuditResult}, r.Name = (deps.getD i dfltDep).Name →
        r.Version = (deps.getD i dfltDep).Version →
        findMatchIdx deps r = some i := by
  intro deps
  induction deps with
  | nil => intro _ i hi; cases hi
  | cons d rest ih =>
    intro hnd i hi r hn hv
    simp only [List.map_cons, List.nodup_cons] at hnd
    cases i with
    | zero =>
      have hd : d.Name = r.Name ∧ d.Version = r.Version := ⟨hn.symm, hv.symm⟩
      simp only [findMatchIdx, if_pos hd]
    | succ j =>
      have hj : j < rest.length := Nat.lt_of_succ_lt_succ hi
      have hne : ¬(d.Name = r.Name ∧ d.Version = r.Version) := by
        intro hd
        apply hnd.1
        have hkey : (d.Name, d.Version) =
            (fun d' => (d'.Name, d'.Version)) (rest.getD j dfltDep) := by
          rw [hd.1, hd.2, hn, hv]
          rfl
        rw [hkey]
        exact List.mem_map_of_mem (fun d' => (d'.Name, d'.Version))
          (getD_mem_of_lt dfltDep rest j hj)
      simp only [findMatchIdx, if_neg hne]
      rw [ih hnd.2 hj hn hv]
      rfl

lemma collect_hits {deps : List Dependency} {probe : Dependency → AuditResult}
    (hkeys : (deps.map (fun d => (d.Name, d.Version))).Nodup)
    (hpn : ∀ d', (probe d').Name = d'.Name)
    (hpv : ∀ d', (probe d').Version = d'.Version) :
    ∀ (as : List AuditResult) (m : Nat → Option AuditResult),
      (∀ r ∈ as, ∃ j, j < deps.length ∧ r = probe (deps.getD j dfltDep)) →
      ∀ i : Nat,
      (m i = some { probe (deps.getD i dfltDep) with Index := i } ∨
        ∃ r ∈ as, findMatchIdx deps r = some i) →
      List.foldl (applyResult deps) m as i =
        some { probe (deps.getD i dfltDep) with Index := i } := by
  intro as
  induction as with
  | nil =>
    intro m _ i hyp
    rcases hyp with h | ⟨r, hr, _⟩
    · exact h
    · cases hr
  | cons r rest ih =>
    intro m hsound i hyp
    rw [List.foldl_cons]
    obtain ⟨j, hj, hrj⟩ := hsound r (List.mem_cons_self _ _)
    have hsound' : ∀ r' ∈ rest, ∃ j', j' < deps.length ∧
        r' = probe (deps.getD j' dfltDep) :=
      fun r' hr' => hsound r' (List.mem_cons_of_mem _ hr')
    cases hmi : findMatchIdx deps r with
    | none =>
      have happ : applyResult deps m r = m := by
        unfold applyResult
        rw [hmi]
      rw [happ]
      apply ih m hsound' i
      rcases hyp with h | ⟨r', hr', hfi⟩
      · exact Or.inl h
      · rcases List.mem_cons.mp hr' with hsame | hr'
        · rw [hsame, hmi] at hfi; cases hfi
        · exact Or.inr ⟨r', hr', hfi⟩
    | some k =>
      obtain ⟨hkb, hkn, hkv⟩ := findMatchIdx_bound hmi
      have hkey : (fun d' => (d'.Name, d'.Version)) (deps.getD k dfltDep) =
          (fun d' => (d'.Name, d'.Version)) (deps.getD j dfltDep) := by
        have h1 : (deps.getD k dfltDep).Name = (deps.getD j dfltDep).Name := by
          rw [hkn, hrj, hpn]
        have h2 : (deps.getD k dfltDep).Version = (deps.getD j dfltDep).Version := by
          rw [hkv, hrj, hpv]
        show ((deps.getD k dfltDep).Name, (deps.getD k dfltDep).Version) =
          ((deps.getD j dfltDep).Name, (deps.getD j dfltDep).Version)
        rw [h1, h2]
      have hkj : k = j :=
        nodup_map_getD_inj (fun d' => (d'.Name, d'.Version)) dfltDep deps hkeys
          k j hkb hj hkey
      have hstore : ({ r with Index := k } : AuditResult) =
          { probe (deps.getD k dfltDep) with Index := k } := by
        rw [hkj, hrj]
      have happ : applyResult deps m r =
          fun j' => if j' = k then some { r with Index := k } else m j' := by
        unfold applyResult
        rw [hmi]
      rw [happ]
      apply ih _ hsound' i
      by_cases hik : i = k
      · subst hik
        exact Or.inl (by simp [hstore])
      · rcases hyp with h | ⟨r', hr', hfi⟩
        · exact Or.inl (by simp only [if_neg hik]; exact h)
        · rcases List.mem_cons.mp hr' with hsame | hr'
          · exfalso
            rw [hsame, hmi] at hfi
            cases hfi
            exact hik rfl
          · exact Or.inr ⟨r', hr', hfi⟩

lemma filterMap_all_some {α β : Type} (f : α → Option β) (g : α → β) :
    ∀ l : List α, (∀ x ∈ l, f x = some (g x)) → l.filterMap f = l.map g := by
  intro l
  induction l with
  | nil => intro _; rfl
  | cons x xs ih =>
    intro h
    rw [List.filterMap_cons, h x (List.mem_cons_self _ _), List.map_cons,
      ih (fun y hy => h y (List.mem_cons_of_mem _ hy))]

/-- C4: with at least one worker, for every submitted work list with
pairwise-distinct (name, version) identities and every completion order of
the probes (every interleaving the results channel can deliver), exactly as
many outcomes arrive as items were submitted, and the final report is
exactly one line per item in strictly ascending original-position order: the
line at position i carries the probe result of item i with its Index field
set to i, so there are no duplicates, no gaps, no dropped items and no
twice-probed items. -/
theorem coordinator_report_complete (deps : List Dependency) (base token : Str)
    (http : Str → HttpOutcome) (numWorkers : Int) (hw : 0 < numWorkers)
    (hkeys : (deps.map (fun d => (d.Name, d.Version))).Nodup)
    (arrivals : List AuditResult)
    (harr : coordinatorCanProduce numWorkers deps
      (probeDependency base token http) arrivals) :
    arrivals.length = deps.length ∧
    finalReport deps arrivals =
      (List.range deps.length).map
        (fun i => { probeDependency base token http (deps.getD i dfltDep) with
                    Index := i }) ∧
    (finalReport deps arrivals).map AuditResult.Index = List.range deps.length := by
  have hperm : arrivals.Perm (deps.map (probeDependency base token http)) := by
    unfold coordinatorCanProduce at harr
    rwa [if_pos hw] at harr
  have hpn : ∀ d', (probeDependency base token http d').Name = d'.Name := fun d' =>
    (checkNpmRegistry_fields d'.Name d'.Version d'.Ty base token http).1
  have hpv : ∀ d', (probeDependency base token http d').Version = d'.Version := fun d' =>
    (checkNpmRegistry_fields d'.Name d'.Version d'.Ty base token http).2.1
  have hsound : ∀ r ∈ arrivals, ∃ j, j < deps.length ∧
      r = probeDependency base token http (deps.getD j dfltDep) := by
    intro r hr
    have hr2 : r ∈ deps.map (probeDependency base token http) := hperm.mem_iff.mp hr
    obtain ⟨d', hd', hval⟩ := List.mem_map.mp hr2
    obtain ⟨j, hj, hg⟩ := mem_iff_getD dfltDep hd'
    exact ⟨j, hj, by rw [hg, hval]⟩
  have htotal : ∀ i, i < deps.length →
      collectResults deps arrivals i =
        some { probeDependency base token http (deps.getD i dfltDep) with Index := i } := by
    intro i hi
    unfold collectResults
    apply collect_hits hkeys hpn hpv arrivals _ hsound i
    refine Or.inr ⟨probeDependency base token http (deps.getD i dfltDep), ?_, ?_⟩
    · exact hperm.mem_iff.mpr
        (List.mem_map_of_mem (probeDependency base token http)
          (getD_mem_of_lt dfltDep deps i hi))
    · exact findMatchIdx_complete hkeys hi (hpn _) (hpv _)
  have hreport : finalReport deps arrivals =
      (List.range deps.length).map
        (fun i => { probeDependency base token http (deps.getD i dfltDep) with
                    Index := i }) := by
    unfold finalReport
    apply filterMap_all_some
    intro i hi
    exact htotal i (List.mem_range.mp hi)
  refine ⟨?_, hreport, ?_⟩
  · rw [hperm.length_eq, List.length_map]
  · rw [hreport, List.map_map]
    have hid : (AuditResult.Index ∘ fun i =>
        ({ probeDependency base token http (deps.getD i dfltDep) with
           Index := i } : AuditResult)) = fun i => i := rfl
    rw [hid, List.map_id']

/-- Witness for C4: two items probed against a registry answering 200, with
the completion order reversed relative to submission, still report as many
outcomes as items. -/
theorem coordinator_report_complete_witness :
    ([probeDependency "r".data [] (httpAlways (HttpOutcome.response 200))
        { Name := "b".data, Version := "2".data, Ty := "package".data },
      probeDependency "r".data [] (httpAlways (HttpOutcome.response 200))
        { Name := "a".data, Version := "1".data, Ty := "package".data }] :
      List AuditResult).length =
      ([{ Name := "a".data, Version := "1".data, Ty := "package".data },
        { Name := "b".data, Version := "2".data, Ty := "package".data }] :
        List Dependency).length :=
  (coordinator_report_complete
    [{ Name := "a".data, Version := "1".data, Ty := "package".data },
     { Name := "b".data, Version := "2".data, Ty := "package".data }]
    "r".data [] (httpAlways (HttpOutcome.response 200)) 5 (by norm_num)
    (by decide)
    [probeDependency "r".data [] (httpAlways (HttpOutcome.response 200))
       { Name := "b".data, Version := "2".data, Ty := "package".data },
     probeDependency "r".data [] (httpAlways (HttpOutcome.response 200))
       { Name := "a".data, Version := "1".data, Ty := "package".data }]
    (by unfold coordinatorCanProduce
        rw [if_pos (by norm_num)]
        decide)).1

/-- C2 counterexample: the caller-supplied worker count 0 is at most zero,
yet it is not replaced by the default 5 — fmt.Sscanf parses it successfully,
no warning is printed, and the coordinator may then deliver an empty results
stream for a non-empty work list, which the default worker count 5 never
does.  So the run does not behave as if the worker count were 5. -/
theorem worker_count_zero_not_default :
    numWorkersFromArg (some "0".data) = 0 ∧
    workerArgWarns (some "0".data) = false ∧
    coordinatorCanProduce (numWorkersFromArg (some "0".data))
      [{ Name := "a".data, Version := "1".data, Ty := "package".data }]
      (probeDependency "r".data [] (httpAlways (HttpOutcome.response 200))) [] ∧
    ¬ coordinatorCanProduce 5
      [{ Name := "a".data, Version := "1".data, Ty := "package".data }]
      (probeDependency "r".data [] (httpAlways (HttpOutcome.response 200))) [] := by
  refine ⟨by decide, by decide, ?_, ?_⟩
  · unfold coordinatorCanProduce
    rw [if_neg (by decide)]
  · intro h
    unfold coordinatorCanProduce at h
    rw [if_pos (by norm_num)] at h
    have hlen := h.length_eq
    simp at hlen

/-- C2 amended: a worker-count argument that Sscanf cannot parse as an
integer falls back to the default 5 with a warning and never fails the run;
but a parseable value is adopted verbatim without warning even when it is
zero or negative, in which case the coordinator spawns no workers and
produces no outcomes at all, rather than behaving as if the count were 5
(with which the outcomes are always a permutation of all probe results). -/
theorem worker_count_fallback_behavior :
    (∀ s : Str, scanDecimal s = none →
      numWorkersFromArg (some s) = 5 ∧ workerArgWarns (some s) = true) ∧
    (∀ (s : Str) (n : Int), scanDecimal s = some n →
      numWorkersFromArg (some s) = n ∧ workerArgWarns (some s) = false) ∧
    (∀ (w : Int) (deps : List Dependency) (probe : Dependency → AuditResult)
      (arrivals : List AuditResult),
      w ≤ 0 → coordinatorCanProduce w deps probe arrivals → arrivals = []) ∧
    (∀ (deps : List Dependency) (probe : Dependency → AuditResult)
      (arrivals : List AuditResult),
      coordinatorCanProduce 5 deps probe arrivals ↔
        arrivals.Perm (deps.map probe)) := by
  refine ⟨?_, ?_, ?_, ?_⟩
  · intro s hs
    constructor
    · show ((match scanDecimal s with | some m => m | none => 5 : Int)) = (5 : Int)
      rw [hs]
    · show (scanDecimal s).isNone = true
      rw [hs]
      rfl
  · intro s n hs
    constructor
    · show ((match scanDecimal s with | some m => m | none => 5 : Int)) = n
      rw [hs]
    · show (scanDecimal s).isNone = false
      rw [hs]
      rfl
  · intro w deps probe arrivals hw h
    unfold coordinatorCanProduce at h
    rwa [if_neg (by omega)] at h
  · intro deps probe arrivals
    unfold coordinatorCanProduce
    rw [if_pos (by norm_num)]

/-- Witness for C2 amended: the non-numeric argument abc falls back to the
default worker count 5. -/
theorem worker_count_fallback_behavior_witness :
    numWorkersFromArg (some "abc".data) = 5 ∧ workerArgWarns (some "abc".data) = true :=
  worker_count_fallback_behavior.1 "abc".data (by decide)
